import Mathlib

/-!
Verification of the tainted-state and error-reconciliation engine of the
sveltekit-superforms repository.

The code under `src/dist` is the authority for `mapErrors`, `updateErrors`
(src/dist/errors.js), `tryParseFormData`, `parseFormData` (src/dist/formData.js)
and the `superForm` client engine (`Form_clientValidation`,
`Form__displayNewErrors`, `Tainted_update`, `chunkSubstr` in src/dist/index.d.ts).
The generic traversal module (`traversePath`, `traversePaths`, `setPaths`,
`pathExists`, `comparePaths`) and the string-path module (`splitPath`,
`mergePath`) are not present under src/, so those primitives are modelled from
spec.md §4.1/§4.2, as noted on each definition.

Modelling conventions (JS to Lean):
- A JS object is an association list `List (String × Tree)` in insertion order.
  A key that is present with value `undefined` is modelled as the explicit
  constructor `.undef`; an absent key is absence from the list.  This captures
  the `key in parent` distinction the engine relies on.
- JS arrays of message strings inside an error tree are atomic leaves
  (`.leaf msgs`); the engine never descends into them with non-numeric keys on
  the paths exercised here.
- Numeric path segments are addressed through their decimal string form, which
  is how JS property access normalises them.
-/

/-- JSON-like tree with explicit `undefined`, used for error trees
(`α = List String`, a leaf is an array of message strings) and for tainted
trees (`α = Unit`, a leaf is the JS literal `true`).  `node` is a JS object as
an insertion-ordered association list. -/
inductive JTree (α : Type) where
  | leaf : α → JTree α
  | undef : JTree α
  | node : List (String × JTree α) → JTree α

/-- Error tree: leaves are arrays of message strings (src/dist/errors.js). -/
abbrev ETree := JTree (List String)

/-- Tainted tree: a leaf is the JS value `true` (src/dist/index.d.ts, Tainted). -/
abbrev TaintTree := JTree Unit

/-- First binding of key `k` in a JS object's association list. -/
def lookupKey {α : Type} : List (String × JTree α) → String → Option (JTree α)
  | [], _ => none
  | (k', v) :: rest, k => if k' = k then some v else lookupKey rest k

/-- JS assignment `parent[k] = v` on an object: replaces the first binding of `k`, or
appends a new binding (JS property insertion order). -/
def childUpdate {α : Type} : List (String × JTree α) → String → JTree α → List (String × JTree α)
  | [], k, v => [(k, v)]
  | (k', v') :: rest, k, v => if k' = k then (k, v) :: rest else (k', v') :: childUpdate rest k v

/-- Modelled from the spec: §4.2 `exists` / value lookup.  Walks the tree;
returns `none` if an intermediate segment is missing or not a container.
`some .undef` means the key is present with the JS value `undefined`. -/
def getPath {α : Type} : JTree α → List String → Option (JTree α)
  | t, [] => some t
  | .node ch, k :: rest =>
      match lookupKey ch k with
      | some c => getPath c rest
      | none => none
  | _, _ :: _ => none

/-- The container used to continue a creating walk through a key: an existing
object is kept; a missing, `undefined` or non-container value is replaced by a
fresh empty object. -/
def asNode {α : Type} : Option (JTree α) → JTree α
  | some (.node ch) => .node ch
  | _ => .node []

/-- Modelled from the spec: §4.2 `setPaths` for a single path with an updater.
Creates intermediate containers as needed (through `asNode`) and sets the
final key to `f old`, where `old` is the previous value at the path (`none`
when absent).  An empty path performs no write (the traversal of an empty path
fails).  A non-object root is returned unchanged (unreachable in the engine,
whose roots are always objects). -/
def setPathWith {α : Type} : JTree α → List String → (Option (JTree α) → JTree α) → JTree α
  | t, [], _ => t
  | .node ch, [k], f => .node (childUpdate ch k (f (lookupKey ch k)))
  | .node ch, k :: k' :: rest, f =>
      .node (childUpdate ch k (setPathWith (asNode (lookupKey ch k)) (k' :: rest) f))
  | t, _ :: _, _ => t

/-- Modelled from the spec: §4.2 `setPaths` with a literal value. -/
def setPath {α : Type} (t : JTree α) (p : List String) (v : JTree α) : JTree α :=
  setPathWith t p (fun _ => v)

mutual
/-- Step 1 of `updateErrors` (src/dist/errors.js:84-88): `traversePaths` over
the previous tree setting every array leaf to `undefined` (key kept). -/
def setArraysUndef {α : Type} : JTree α → JTree α
  | .leaf _ => .undef
  | .undef => .undef
  | .node ch => .node (setArraysUndefCh ch)

def setArraysUndefCh {α : Type} : List (String × JTree α) → List (String × JTree α)
  | [] => []
  | (k, t) :: rest => (k, setArraysUndef t) :: setArraysUndefCh rest
end

mutual
/-- All `(path, value)` pairs visited by `traversePaths` whose value is an
array or explicitly `undefined` (the filter of src/dist/errors.js:89-93),
depth-first in insertion order.  The root itself is never a collected path. -/
def leavesAll {α : Type} : JTree α → List (List String × JTree α)
  | .node ch => leavesAllCh ch
  | _ => []

def leavesAllCh {α : Type} : List (String × JTree α) → List (List String × JTree α)
  | [] => []
  | (k, t) :: rest =>
      (match t with
       | .node _ => (leavesAll t).map (fun qv => (k :: qv.1, qv.2))
       | v => [([k], v)]) ++ leavesAllCh rest
end

/-- The function `updateErrors(New, Previous, force)` from src/dist/errors.js:79-95:
if `force`, return `New`; otherwise set every array leaf of `Previous` to
`undefined`, then write every array-or-undefined leaf of `New` into `Previous`
at the same path, and return the mutated `Previous`. -/
def updateErrors {α : Type} (n p : JTree α) (force : Bool) : JTree α :=
  if force then n
  else (leavesAll n).foldl (fun acc qv => setPath acc qv.1 qv.2) (setArraysUndef p)

/-! ## Data trees and the diff engine (spec §4.2 DiffEngine / TreeTraversal) -/

/-- Scalar leaf values of a form data tree.  `vDate ref instant` carries a
reference identity (two distinct `Date` objects are never strictly equal in
JS) and the instant (used by the diff engine's value comparison); `vFile ref`
carries reference identity only.  Numbers are modelled as integers. -/
inductive DVal where
  | vNull : DVal
  | vUndef : DVal
  | vStr : String → DVal
  | vInt : Int → DVal
  | vBool : Bool → DVal
  | vDate : Nat → Int → DVal
  | vFile : Nat → DVal
deriving DecidableEq

/-- Form data tree: nested objects and arrays with scalar leaves. -/
inductive DTree where
  | scalar : DVal → DTree
  | arr : List DTree → DTree
  | obj : List (String × DTree) → DTree

/-- First binding of key `k` in a data object's association list. -/
def lookupField : List (String × DTree) → String → Option DTree
  | [], _ => none
  | (k', v) :: rest, k => if k' = k then some v else lookupField rest k

/-- JS array indexing `xs[k]` by a canonical decimal string key
(`xs["01"]` is `undefined` even when `xs[1]` exists). -/
def arrGet (xs : List DTree) (k : String) : Option DTree :=
  match k.toNat? with
  | some i => if toString i = k then xs[i]? else none
  | none => none

mutual
/-- All leaf paths of a data tree, depth-first in declaration/array order
(spec §4.2); array indices are rendered as decimal strings. -/
def leafPaths : DTree → List (List String)
  | .scalar _ => [[]]
  | .obj fs => leafPathsFields fs
  | .arr xs => leafPathsItems 0 xs

def leafPathsFields : List (String × DTree) → List (List String)
  | [] => []
  | (k, t) :: rest => (leafPaths t).map (k :: ·) ++ leafPathsFields rest

def leafPathsItems : Nat → List DTree → List (List String)
  | _, [] => []
  | i, t :: rest => (leafPaths t).map (toString i :: ·) ++ leafPathsItems (i + 1) rest
end

/-- Modelled from the spec: §4.2 `exists` on a data tree.  Containers are
objects and arrays; walking into a scalar fails. -/
def valueAt : DTree → List String → Option DTree
  | t, [] => some t
  | .obj fs, k :: rest =>
      match lookupField fs k with
      | some c => valueAt c rest
      | none => none
  | .arr xs, k :: rest =>
      match arrGet xs k with
      | some c => valueAt c rest
      | none => none
  | .scalar _, _ :: _ => none

/-- Value comparison of the diff engine (spec §4.2 `comparePaths`): two dates
are different unless they denote the same instant; two file-like values are
different unless reference-equal; other scalars compare by value. -/
def compareValEq : DVal → DVal → Bool
  | .vDate _ t1, .vDate _ t2 => t1 == t2
  | a, b => a == b

/-- Leaf-level comparison used by the diff: a missing value and an explicit
`undefined` compare equal (JS `undefined === undefined`); a scalar never
equals a container. -/
def eqOptB : Option DTree → Option DTree → Bool
  | none, none => true
  | some (.scalar .vUndef), none => true
  | none, some (.scalar .vUndef) => true
  | some (.scalar v), some (.scalar w) => compareValEq v w
  | _, _ => false

/-- Whether the values of two data trees at one path compare equal for the
diff engine. -/
def eqAtB (a b : DTree) (p : List String) : Bool :=
  eqOptB (valueAt a p) (valueAt b p)

/-- Ordered union without duplicates: `xs` then the members of `ys` not
already present. -/
def dedupAppend (xs ys : List (List String)) : List (List String) :=
  xs ++ ys.filter (fun p => !(xs.contains p))

/-- Modelled from the spec: §4.2 `comparePaths(a, b)` — the ordered sequence
of leaf paths (of either tree, first tree's order first) whose values differ,
with the date/file comparison rules above. -/
def comparePaths (a b : DTree) : List (List String) :=
  (dedupAppend (leafPaths a) (leafPaths b)).filter (fun p => !(eqAtB a b p))

/-! ## JS strict-equality lookup used by `Tainted_update`
(src/dist/index.d.ts:726-728: `traversePath` on both trees and `===`). -/

/-- JS property read `parent[k]`: `none` is the JS value `undefined`
(missing key, explicit `undefined`, or any read on a scalar). -/
def jsGet : DTree → String → Option DTree
  | .obj fs, k =>
      match lookupField fs k with
      | some (.scalar .vUndef) => none
      | some v => some v
      | none => none
  | .arr xs, k =>
      match arrGet xs k with
      | some (.scalar .vUndef) => none
      | some v => some v
      | none => none
  | .scalar _, _ => none

/-- Modelled from the spec: `traversePath` without a modifier — every intermediate read must be
non-`undefined`; the final read may be `undefined` (`some none`).  An empty
path returns `none` (the JS traversal returns `undefined`). -/
def jsWalk : DTree → List String → Option (Option DTree)
  | _, [] => none
  | t, [k] => some (jsGet t k)
  | t, k :: k' :: rest =>
      match jsGet t k with
      | some v => jsWalk v (k' :: rest)
      | none => none

/-- JS strict equality `===` on values read from two distinct tree snapshots:
primitives by value, dates and files by reference identity; two containers
from distinct snapshots are never reference-equal (the engine's clean tree is
always a clone of the form tree). -/
def jsStrictEq : DTree → DTree → Bool
  | .scalar (.vDate r1 _), .scalar (.vDate r2 _) => r1 == r2
  | .scalar v, .scalar w => v == w
  | _, _ => false

/-- Strict equality of two possibly-`undefined` values. -/
def jsEqOpt : Option DTree → Option DTree → Bool
  | none, none => true
  | some a, some b => jsStrictEq a b
  | _, _ => false

/-- The condition `currentValue && cleanPath && currentValue.value ===
cleanPath.value` of src/dist/index.d.ts:726-728. -/
def jsEqAt (n c : DTree) (p : List String) : Bool :=
  match jsWalk n p, jsWalk c p with
  | some x, some y => jsEqOpt x y
  | _, _ => false

/-! ## Taint engine (src/dist/index.d.ts:660-752) -/

/-- The `TaintOption` type of the source: `true`, `false`, `'untaint'`,
`'untaint-all'`, `'untaint-form'`, `'ignore'`. -/
inductive TaintPolicy where
  | taintTrue : TaintPolicy
  | taintFalse : TaintPolicy
  | untaint : TaintPolicy
  | untaintAll : TaintPolicy
  | untaintForm : TaintPolicy
  | ignore : TaintPolicy
deriving DecidableEq

/-- JS `Array.prototype.join()` with the default `','` separator, as used on
paths by `Tainted_update` (src/dist/index.d.ts:713,724). -/
def joinComma (p : List String) : String :=
  String.intercalate "," p

/-- The updater passed to `setPaths` by `Tainted_update`
(src/dist/index.d.ts:722-735): untaint when the path is not in the
joined diff against the clean baseline, or when the new value is strictly
equal to the clean value; otherwise taint `true`, untaint, or keep the
previous value according to the policy. -/
def taintUpdater (newData clean : DTree) (newTainted : List String)
    (pol : TaintPolicy) (p : List String) (old : Option TaintTree) : TaintTree :=
  if !(newTainted.contains (joinComma p)) then .undef
  else if jsEqAt newData clean p then .undef
  else
    match pol with
    | .taintTrue => .leaf ()
    | .untaint => .undef
    | _ => old.getD JTree.undef

/-- The function `Tainted_update(newData, taintOptions)` from src/dist/index.d.ts:706-741.
State is `(tainted, clean)`; `form` is the current form data (`Data.form`).
`'ignore'` returns immediately; an empty diff leaves the state untouched;
`'untaint-all'`/`'untaint-form'` reset the whole tainted tree to `undefined`;
otherwise every changed path is written through `taintUpdater`.  The clean
baseline is returned unchanged (the function never modifies it). -/
def Tainted_update (state : Option TaintTree) (clean form newData : DTree)
    (pol : TaintPolicy) : Option TaintTree × DTree :=
  if pol = .ignore then (state, clean)
  else if (comparePaths newData form).isEmpty then (state, clean)
  else if pol = .untaintAll ∨ pol = .untaintForm then (none, clean)
  else
    (some ((comparePaths newData form).foldl
      (fun acc p => setPathWith acc p
        (taintUpdater newData clean ((comparePaths newData clean).map joinComma) pol p))
      (state.getD (.node []))), clean)

/-- The check `Tainted_hasBeenTainted(path)` from src/dist/index.d.ts:672-679: false
when the tainted tree is `undefined`; true for the empty path when the tree
exists; otherwise `pathExists` plus a `key in parent` presence check. -/
def keyPresentAt {α : Type} (t : JTree α) (p : List String) : Bool :=
  match p.getLast? with
  | none => false
  | some k =>
      match getPath t p.dropLast with
      | some (.node ch) => (lookupKey ch k).isSome
      | _ => false

/-- The check `Tainted_hasBeenTainted` on the optional tainted store. -/
def hasBeenTainted (tainted : Option TaintTree) (p : List String) : Bool :=
  match tainted with
  | none => false
  | some t => if p.isEmpty then true else keyPresentAt t p

/-! ## `mapErrors` (src/dist/errors.js:21-73) -/

/-- Raw path segment of a validation issue: schema adapters emit strings for
object properties and numbers for array indices. -/
inductive Seg where
  | s : String → Seg
  | n : Nat → Seg
deriving DecidableEq

/-- JS `String(p)` on a path segment. -/
def segStr : Seg → String
  | .s v => v
  | .n v => toString v

/-- JS falsiness of a path segment (`!error.path[0]`): the empty string and
the number `0` are falsy; the string `"0"` is truthy. -/
def segFalsy : Seg → Bool
  | .s v => v == ""
  | .n v => v == 0

/-- A normalized validation issue `{path, message}` (spec §3); a JS
null/undefined path is modelled as the empty list, which the code routes to
the same form-level outcome. -/
structure ValidationIssue where
  path : List Seg
  message : String

/-- Shape hint passed to `mapErrors`: a nested record of the schema's
container structure (every node is a JS object, hence truthy). -/
inductive Shape where
  | node : List (String × Shape) → Shape

/-- First binding of key `k` in a shape node. -/
def shapeLookup : List (String × Shape) → String → Option Shape
  | [], _ => none
  | (k', v) :: rest, k => if k' = k then some v else shapeLookup rest k

/-- Walk of a shape along a path. -/
def shapeAt : Shape → List String → Option Shape
  | t, [] => some t
  | .node ch, k :: rest =>
      match shapeLookup ch k with
      | some c => shapeAt c rest
      | none => none

/-- Modelled from the spec: `pathExists(shape, path)?.value` truthiness
(§4.3): the non-numeric-filtered path resolves to an existing node.  The
traversal of an empty path fails, so the empty path is falsy. -/
def shapeExists (sh : Shape) (p : List String) : Bool :=
  match p with
  | [] => false
  | _ => (shapeAt sh p).isSome

/-- The regex `/^\d$/` of src/dist/errors.js:43: exactly one digit. -/
def isSingleDigit (s : String) : Bool :=
  match s.toList with
  | [c] => c.isDigit
  | _ => false

/-- The regex test `/\D/.test(s)` of src/dist/errors.js:45: `s` contains a
non-digit character (false for the empty string). -/
def hasNonDigit (s : String) : Bool :=
  s.toList.any (fun c => !c.isDigit)

/-- The helper `addFormLevelError` of src/dist/errors.js:24-34: append the message to
the root `_errors` array, creating it when missing; a non-array `_errors`
throws `SuperFormError` (the string-wrapping sub-branch is unreachable from
the empty initial output and is not modelled). -/
def addFormLevelError (out : ETree) (msg : String) : Except String ETree :=
  match out with
  | .node ch =>
      match lookupKey ch "_errors" with
      | none => .ok (.node (childUpdate ch "_errors" (.leaf [msg])))
      | some (.leaf ms) => .ok (.node (childUpdate ch "_errors" (.leaf (ms ++ [msg]))))
      | some _ => .error "Form-level error was not an array."
  | _ => .error "output is not an object"

/-- The per-issue write of src/dist/errors.js:47-70: `traversePath` over the
output with `{}`-creation of missing or `undefined` intermediates, then
either the object-level `_errors` append or the leaf-array append at the
final key.  States a JS mutation would produce that are unrepresentable here
(walking into or pushing onto an existing message array through a colliding
path) are surfaced as `.error` and are unreachable for non-colliding issue
lists. -/
def insertAt : ETree → List String → Bool → String → Except String ETree
  | .node ch, [k], objErr, msg =>
      if objErr then
        match lookupKey ch k with
        | none => .ok (.node (childUpdate ch k (.node [("_errors", .leaf [msg])])))
        | some (.node ch') =>
            match lookupKey ch' "_errors" with
            | none =>
                .ok (.node (childUpdate ch k (.node (childUpdate ch' "_errors" (.leaf [msg])))))
            | some (.leaf ms) =>
                .ok (.node (childUpdate ch k (.node (childUpdate ch' "_errors" (.leaf (ms ++ [msg]))))))
            | some _ => .error "object _errors is not an array"
        | some _ => .error "object-level write into a non-object value"
      else
        match lookupKey ch k with
        | none => .ok (.node (childUpdate ch k (.leaf [msg])))
        | some (.leaf ms) => .ok (.node (childUpdate ch k (.leaf (ms ++ [msg]))))
        | some _ => .error "push on a non-array value"
  | .node ch, k :: k' :: rest, objErr, msg =>
      (match lookupKey ch k with
       | some (.node ch') => insertAt (.node ch') (k' :: rest) objErr msg
       | some (.leaf _) => .error "walk into a message array"
       | _ => insertAt (.node []) (k' :: rest) objErr msg).map
        (fun c' => .node (childUpdate ch k c'))
  | _, _, _, _ => .error "traversal of an empty path"

/-- One iteration of the `mapErrors` loop (src/dist/errors.js:35-71).
The form-level branch covers a falsy single-segment path directly and the
empty path through the failed traversal (`!leaf`), which reaches the same
`addFormLevelError`. -/
def insertIssue (shape : Shape) (out : ETree) (e : ValidationIssue) : Except String ETree :=
  if e.path.isEmpty ∨ (e.path.length = 1 ∧ segFalsy (e.path.headD (.s "")) = true) then
    addFormLevelError out e.message
  else
    let isLastNum := isSingleDigit (segStr (e.path.getLastD (.s "")))
    let filtered := (e.path.filter (fun p => hasNonDigit (segStr p))).map segStr
    let objErr := !isLastNum && shapeExists shape filtered
    insertAt out (e.path.map segStr) objErr e.message

/-- The function `mapErrors(errors, shape)` of src/dist/errors.js:21-73. -/
def mapErrors (errors : List ValidationIssue) (shape : Shape) : Except String ETree :=
  errors.foldlM (fun out e => insertIssue shape out e) (.node [])

/-! ## Validation event policy (src/dist/index.d.ts:376-512) -/

/-- The `validationMethod` option. -/
inductive ValidationMethod where
  | auto : ValidationMethod
  | oninput : ValidationMethod
  | onblur : ValidationMethod
  | onsubmit : ValidationMethod
  | submitOnly : ValidationMethod
deriving DecidableEq

/-- The `event.type` field of a change event (`undefined` is modelled as `none` at the
use sites). -/
inductive EventType where
  | input : EventType
  | blur : EventType
deriving DecidableEq

/-- The `validators` option as far as `Form_clientValidation` inspects it:
absent, the string `'clear'`, or a validation adapter. -/
inductive ValidatorsOption where
  | unset : ValidatorsOption
  | clear : ValidatorsOption
  | adapter : ValidatorsOption
deriving DecidableEq

/-- The `skipValidation` computation of src/dist/index.d.ts:386-395. -/
def skipValidation (vm : ValidationMethod) (force : Bool) (etype : Option EventType) : Bool :=
  if force then false
  else
    match vm with
    | .onsubmit => true
    | .submitOnly => true
    | .onblur => decide (etype = some .input)
    | .oninput => decide (etype = some .blur)
    | .auto => false

/-- The event information `Form_clientValidation` reads before deciding
whether to validate. -/
structure ChangeEventInfo where
  etype : Option EventType

/-- Whether `Form_clientValidation` (src/dist/index.d.ts:376-404) reaches the
`Form_validate` call — i.e. invokes the configured validator.  The guard of
line 396 returns early (running only custom-validity clearing) when
validation is skipped, the event is missing, or no real validator is
configured. -/
def Form_clientValidation_invokes (vm : ValidationMethod) (validators : ValidatorsOption)
    (event : Option ChangeEventInfo) (force : Bool) : Bool :=
  let etype := match event with
               | none => none
               | some e => e.etype
  let noValidator : Bool := match validators with
                            | .unset => true
                            | .clear => true
                            | .adapter => false
  !(skipValidation vm force etype || event.isNone || noValidator)

/-- JS `Array.prototype.join('.')` on a path. -/
def dotJoin (p : List String) : String :=
  String.intercalate "." p

/-- The change event fields read by `Form__displayNewErrors`
(src/dist/index.d.ts:430); event paths are already in string form. -/
structure DisplayEvent where
  etype : Option EventType
  immediate : Bool
  multiple : Bool
  paths : List (List String)

/-- The ambient state read by `Form__displayNewErrors`: the validation-method
option, the previous error store (`Data.errors`, also the live `Errors`
store at that point), and the tainted store. -/
structure DisplayCtx where
  validationMethod : ValidationMethod
  previous : ETree
  tainted : Option TaintTree

/-- The per-error display decision of src/dist/index.d.ts:437-509, for an
array-valued node of the new error tree at path `epath`.  `true` means
`addError()` runs (the error is written to the output); the custom-validity
side channel is not modelled.  `Tainted_hasBeenTainted` receives the parent
path directly (the source round-trips it through `mergePath`/`splitPath`,
spec §4.1 property 1). -/
def shouldDisplay (ctx : DisplayCtx) (ev : DisplayEvent) (force : Bool)
    (epath : List String) : Bool :=
  if force then true
  else
    let isObjectError := decide (epath.getLast? = some "_errors")
    let currentPath := if isObjectError then epath.dropLast else epath
    let joined := dotJoin currentPath
    let isEventError := ev.paths.any (fun path =>
      if isObjectError then
        match currentPath.head?, path.head? with
        | some a, some b => a == b
        | _, _ => false
      else joined == dotJoin path)
    if isEventError && decide (ctx.validationMethod = .oninput) then true
    else if ev.immediate && !ev.multiple && isEventError then true
    else if ev.multiple &&
        (match getPath ctx.previous epath.dropLast with
         | some (.node ch) =>
             ch.any (fun kv => match kv.2 with
                               | .leaf _ => true
                               | _ => false)
         | _ => false) then true
    else if keyPresentAt ctx.previous epath then true
    else if isObjectError then
      decide (ctx.validationMethod = .oninput) ||
        (decide (ev.etype = some .blur) && hasBeenTainted ctx.tainted epath.dropLast)
    else
      decide (ev.etype = some .blur) && isEventError

/-- The array-valued nodes of a new error tree, in `traversePaths` order
(the filter of src/dist/index.d.ts:437-439). -/
def leavesArr (t : ETree) : List (List String × List String) :=
  (leavesAll t).filterMap (fun qv =>
    match qv.2 with
    | .leaf ms => some (qv.1, ms)
    | _ => none)

/-- The `output` tree built by `Form__displayNewErrors`
(src/dist/index.d.ts:432-510): every displayed error is written at its full
path; suppressed errors are not written. -/
def displayedOutput (ctx : DisplayCtx) (ev : DisplayEvent) (force : Bool)
    (newErrors : ETree) : ETree :=
  (leavesArr newErrors).foldl (fun acc pm =>
    if shouldDisplay ctx ev force pm.1 then setPath acc pm.1 (.leaf pm.2) else acc)
    (.node [])

/-- The function `Form__displayNewErrors` followed by `Errors.set(output)`
(src/dist/index.d.ts:511 and 604-608): the output is merged into the
previous store through `updateErrors` with no force option. -/
def Form__displayNewErrors (ctx : DisplayCtx) (ev : DisplayEvent) (force : Bool)
    (newErrors : ETree) : ETree :=
  updateErrors (displayedOutput ctx ev force newErrors) ctx.previous false

/-! ## Form data parsing (src/dist/formData.js) and `chunkSubstr`
(src/dist/index.d.ts:1175-1182) -/

/-- A thrown JS error as far as `tryParseFormData` inspects it. -/
structure JsError where
  isTypeError : Bool
  message : String

/-- The result triple of the request parsers. -/
structure ParsedRequest where
  id : Option String
  data : Option DTree
  posted : Bool

/-- The empty-form result `{id: undefined, data: undefined, posted: false}`
of src/dist/formData.js:61. -/
def emptyFormRequest : ParsedRequest :=
  { id := none, data := none, posted := false }

/-- JS `String.prototype.includes`. -/
def strIncludes (s sub : String) : Bool :=
  decide (sub.toList <:+: s.toList)

/-- The function `tryParseFormData(request, ...)` of src/dist/formData.js:49-64, given the
outcome of `await request.formData()`: a `TypeError` whose message includes
`'already been consumed'` is rethrown; any other failure degrades to the
empty-form result; on success `parseFormData` runs (abstracted as `parseFn`,
whose internals the parse-failure claims do not touch). -/
def tryParseFormData {φ : Type} (outcome : Except JsError φ)
    (parseFn : φ → Except JsError ParsedRequest) : Except JsError ParsedRequest :=
  match outcome with
  | .ok fd => parseFn fd
  | .error e =>
      if e.isTypeError && strIncludes e.message "already been consumed" then .error e
      else .ok emptyFormRequest

/-- The function `chunkSubstr(str, size)` of src/dist/index.d.ts:1175-1182 on a string
modelled as a character list: `Math.ceil(length / size)` chunks, the `i`-th
being `str.substring(i * size, i * size + size)`. -/
def chunkSubstr (s : List Char) (size : Nat) : List (List Char) :=
  (List.range ((s.length + size - 1) / size)).map (fun i => (s.drop (i * size)).take size)

example : updateErrors (JTree.node [("a", JTree.leaf ["y"])])
    (JTree.node [("a", JTree.node [("b", JTree.leaf ["x"])])]) false
    = JTree.node [("a", JTree.leaf ["y"])] := rfl

example :
    mapErrors [⟨[Seg.s "tags", Seg.n 10], "x"⟩] (Shape.node [("tags", Shape.node [])])
    = Except.ok (JTree.node [("tags", JTree.node
        [("10", JTree.node [("_errors", JTree.leaf ["x"])])])]) := rfl

example :
    mapErrors [⟨[Seg.s "tags", Seg.n 1], "x"⟩] (Shape.node [("tags", Shape.node [])])
    = Except.ok (JTree.node [("tags", JTree.node [("1", JTree.leaf ["x"])])]) := rfl

example :
    mapErrors [⟨[Seg.n 0], "m"⟩] (Shape.node [])
    = Except.ok (JTree.node [("_errors", JTree.leaf ["m"])]) := rfl

example : chunkSubstr "abcde".toList 2 = ["ab".toList, "cd".toList, "e".toList] := rfl

/-! ## Lemmas about the traversal primitives -/

theorem lookupKey_childUpdate_self {α : Type} (ch : List (String × JTree α)) (k : String)
    (v : JTree α) : lookupKey (childUpdate ch k v) k = some v := by
  induction ch with
  | nil => simp [childUpdate, lookupKey]
  | cons hd tl ih =>
      obtain ⟨k', v'⟩ := hd
      by_cases hk : k' = k
      · simp [childUpdate, hk, lookupKey]
      · simp [childUpdate, hk, lookupKey, ih]

theorem lookupKey_childUpdate_ne {α : Type} (ch : List (String × JTree α)) (k j : String)
    (v : JTree α) (hne : j ≠ k) : lookupKey (childUpdate ch k v) j = lookupKey ch j := by
  induction ch with
  | nil => simp [childUpdate, lookupKey, Ne.symm hne]
  | cons hd tl ih =>
      obtain ⟨k', v'⟩ := hd
      by_cases hk : k' = k
      · subst hk
        simp [childUpdate, lookupKey, Ne.symm hne]
      · by_cases hj : k' = j
        · simp [childUpdate, hk, lookupKey, hj, hne]
        · simp [childUpdate, hk, lookupKey, hj, ih]

theorem getPath_node_cons {α : Type} (ch : List (String × JTree α)) (k : String)
    (p : List String) :
    getPath (.node ch) (k :: p) = (lookupKey ch k).bind (fun c => getPath c p) := by
  cases hlk : lookupKey ch k <;> simp [getPath, hlk]

theorem getPath_asNode {α : Type} (o : Option (JTree α)) (p : List String) (hp : p ≠ []) :
    getPath (asNode o) p = o.bind (fun c => getPath c p) := by
  cases p with
  | nil => exact absurd rfl hp
  | cons k p' =>
      cases o with
      | none => simp [asNode, getPath_node_cons, lookupKey]
      | some c =>
          cases c with
          | node ch => simp [asNode]
          | leaf a => simp [asNode, getPath_node_cons, lookupKey, getPath]
          | undef => simp [asNode, getPath_node_cons, lookupKey, getPath]

theorem getPath_append {α : Type} (t : JTree α) (q r : List String) :
    getPath t (q ++ r) = (getPath t q).bind (fun c => getPath c r) := by
  induction q generalizing t with
  | nil => simp [getPath]
  | cons k q ih =>
      cases t with
      | leaf a => simp [getPath]
      | undef => simp [getPath]
      | node ch =>
          rw [List.cons_append, getPath_node_cons, getPath_node_cons]
          cases lookupKey ch k with
          | none => simp
          | some c => simpa using ih c

theorem setPathWith_node_nonempty {α : Type} (ch : List (String × JTree α))
    (q : List String) (f : Option (JTree α) → JTree α) (hq : q ≠ []) :
    ∃ ch', setPathWith (.node ch) q f = .node ch' := by
  cases q with
  | nil => exact absurd rfl hq
  | cons k q' =>
      cases q' with
      | nil => exact ⟨_, rfl⟩
      | cons k' rest => exact ⟨_, rfl⟩

theorem asNode_node {α : Type} (o : Option (JTree α)) :
    ∃ ch, asNode o = .node ch := by
  cases o with
  | none => exact ⟨[], rfl⟩
  | some c =>
      cases c with
      | node ch => exact ⟨ch, rfl⟩
      | leaf a => exact ⟨[], rfl⟩
      | undef => exact ⟨[], rfl⟩

theorem getPath_node_cons_of_some {α : Type} (ch : List (String × JTree α)) (k : String)
    (p : List String) (c : JTree α) (h : lookupKey ch k = some c) :
    getPath (.node ch) (k :: p) = getPath c p := by
  simp [getPath, h]

theorem getPath_setPathWith_self {α : Type} (ch : List (String × JTree α))
    (q r : List String) (f : Option (JTree α) → JTree α) (hq : q ≠ []) :
    getPath (setPathWith (.node ch) q f) (q ++ r)
      = getPath (f (getPath (.node ch) q)) r := by
  induction q generalizing ch with
  | nil => exact absurd rfl hq
  | cons k q' ih =>
      cases q' with
      | nil =>
          have hset : setPathWith (JTree.node ch) [k] f
              = JTree.node (childUpdate ch k (f (lookupKey ch k))) := rfl
          have hval : getPath (JTree.node ch) [k] = lookupKey ch k := by
            cases hlk : lookupKey ch k <;> simp [getPath, hlk]
          rw [hset, List.cons_append, List.nil_append,
            getPath_node_cons_of_some _ _ _ _ (lookupKey_childUpdate_self ch k _), hval]
      | cons k2 rest =>
          have hset : setPathWith (JTree.node ch) (k :: k2 :: rest) f
              = JTree.node (childUpdate ch k
                  (setPathWith (asNode (lookupKey ch k)) (k2 :: rest) f)) := rfl
          obtain ⟨ch2, hch2⟩ := asNode_node (lookupKey ch k)
          rw [hset, List.cons_append,
            getPath_node_cons_of_some _ _ _ _ (lookupKey_childUpdate_self ch k _),
            hch2, ih ch2 (by simp), ← hch2,
            getPath_asNode _ _ (by simp), getPath_node_cons]

theorem getPath_setPathWith_frame {α : Type} (t : JTree α) (q p : List String)
    (f : Option (JTree α) → JTree α) (hqp : ¬ q <+: p) (hpq : ¬ p <+: q) :
    getPath (setPathWith t q f) p = getPath t p := by
  induction q generalizing t p with
  | nil => exact absurd (by simp) hqp
  | cons k q' ih =>
      cases p with
      | nil => exact absurd (by simp) hpq
      | cons j p' =>
          cases t with
          | leaf a => cases q' <;> rfl
          | undef => cases q' <;> rfl
          | node ch =>
              by_cases hkj : k = j
              · subst hkj
                have hq'p' : ¬ q' <+: p' :=
                  fun h => hqp (List.cons_prefix_cons.mpr ⟨rfl, h⟩)
                have hp'q' : ¬ p' <+: q' :=
                  fun h => hpq (List.cons_prefix_cons.mpr ⟨rfl, h⟩)
                have hp'ne : p' ≠ [] := by
                  intro h
                  subst h
                  exact hpq (List.cons_prefix_cons.mpr ⟨rfl, by simp⟩)
                cases q' with
                | nil => exact absurd (by simp) hq'p'
                | cons k2 rest =>
                    have hset : setPathWith (JTree.node ch) (k :: k2 :: rest) f
                        = JTree.node (childUpdate ch k
                            (setPathWith (asNode (lookupKey ch k)) (k2 :: rest) f)) := rfl
                    rw [hset,
                      getPath_node_cons_of_some _ _ _ _ (lookupKey_childUpdate_self ch k _),
                      ih _ _ hq'p' hp'q', getPath_asNode _ _ hp'ne, getPath_node_cons]
              · have hne : j ≠ k := fun h => hkj h.symm
                cases q' with
                | nil =>
                    have hset : setPathWith (JTree.node ch) [k] f
                        = JTree.node (childUpdate ch k (f (lookupKey ch k))) := rfl
                    rw [hset, getPath_node_cons, getPath_node_cons,
                      lookupKey_childUpdate_ne _ _ _ _ hne]
                | cons k2 rest =>
                    have hset : setPathWith (JTree.node ch) (k :: k2 :: rest) f
                        = JTree.node (childUpdate ch k
                            (setPathWith (asNode (lookupKey ch k)) (k2 :: rest) f)) := rfl
                    rw [hset, getPath_node_cons, getPath_node_cons,
                      lookupKey_childUpdate_ne _ _ _ _ hne]

theorem getPath_setPathWith_above {α : Type} (ch : List (String × JTree α))
    (q p : List String) (f : Option (JTree α) → JTree α)
    (hpq : p <+: q) (hne : p ≠ q) :
    ∃ ch', getPath (setPathWith (.node ch) q f) p = some (.node ch') := by
  induction p generalizing ch q with
  | nil =>
      have hq : q ≠ [] := fun h => hne h.symm
      obtain ⟨ch', hch⟩ := setPathWith_node_nonempty ch q f hq
      exact ⟨ch', by rw [hch]; rfl⟩
  | cons k p' ih =>
      cases q with
      | nil => simp at hpq
      | cons k2 q' =>
          obtain ⟨hk, hpq'⟩ := List.cons_prefix_cons.mp hpq
          subst hk
          have hne' : p' ≠ q' := fun h => hne (by rw [h])
          have hq'ne : q' ≠ [] := by
            intro h
            subst h
            exact hne' (List.prefix_nil.mp hpq')
          cases q' with
          | nil => exact absurd rfl hq'ne
          | cons k3 rest =>
              have hset : setPathWith (JTree.node ch) (k :: k3 :: rest) f
                  = JTree.node (childUpdate ch k
                      (setPathWith (asNode (lookupKey ch k)) (k3 :: rest) f)) := rfl
              obtain ⟨ch2, hch2⟩ := asNode_node (lookupKey ch k)
              obtain ⟨ch', hch'⟩ := ih ch2 (k3 :: rest) hpq' hne'
              refine ⟨ch', ?_⟩
              rw [hset,
                getPath_node_cons_of_some _ _ _ _ (lookupKey_childUpdate_self ch k _),
                hch2]
              exact hch'

theorem lookupKey_setArraysUndefCh {α : Type} (ch : List (String × JTree α)) (k : String) :
    lookupKey (setArraysUndefCh ch) k = (lookupKey ch k).map setArraysUndef := by
  induction ch with
  | nil => simp [setArraysUndefCh, lookupKey]
  | cons hd tl ih =>
      obtain ⟨k', v'⟩ := hd
      by_cases hk : k' = k
      · simp [setArraysUndefCh, lookupKey, hk]
      · simp [setArraysUndefCh, lookupKey, hk, ih]

theorem setArraysUndef_ne_leaf {α : Type} (t : JTree α) (a : α) :
    setArraysUndef t ≠ .leaf a := by
  cases t <;> simp [setArraysUndef]

theorem getPath_setArraysUndef_ne_leaf {α : Type} (t : JTree α) (p : List String) (a : α) :
    getPath (setArraysUndef t) p ≠ some (.leaf a) := by
  induction p generalizing t with
  | nil =>
      intro h
      exact setArraysUndef_ne_leaf t a (by simpa [getPath] using h)
  | cons k p' ih =>
      cases t with
      | leaf b => simp [setArraysUndef, getPath]
      | undef => simp [setArraysUndef, getPath]
      | node ch =>
          rw [show setArraysUndef (JTree.node ch) = JTree.node (setArraysUndefCh ch) from rfl,
            getPath_node_cons, lookupKey_setArraysUndefCh]
          cases lookupKey ch k with
          | none => simp
          | some c => simpa using ih c

theorem getPath_setArraysUndef_of_leaf {α : Type} (t : JTree α) (p : List String)
    (ms : α) (h : getPath t p = some (.leaf ms)) :
    getPath (setArraysUndef t) p = some .undef := by
  induction p generalizing t with
  | nil =>
      have : t = .leaf ms := by simpa [getPath] using h
      subst this
      rfl
  | cons k p' ih =>
      cases t with
      | leaf b => simp [getPath] at h
      | undef => simp [getPath] at h
      | node ch =>
          rw [getPath_node_cons] at h
          rw [show setArraysUndef (JTree.node ch) = JTree.node (setArraysUndefCh ch) from rfl,
            getPath_node_cons, lookupKey_setArraysUndefCh]
          cases hlk : lookupKey ch k with
          | none => simp [hlk] at h
          | some c =>
              rw [hlk] at h
              simpa using ih c (by simpa using h)

theorem leavesAllCh_shape {α : Type} (ch : List (String × JTree α))
    (q : List String) (v : JTree α) (h : (q, v) ∈ leavesAllCh ch) :
    ∃ k q', q = k :: q' ∧ k ∈ ch.map Prod.fst := by
  induction ch with
  | nil => simp [leavesAllCh] at h
  | cons hd tl ih =>
      obtain ⟨k, t⟩ := hd
      cases t with
      | node ch' =>
          rw [show leavesAllCh ((k, JTree.node ch') :: tl)
              = (leavesAll (JTree.node ch')).map (fun qv => (k :: qv.1, qv.2))
                ++ leavesAllCh tl from rfl] at h
          rcases List.mem_append.mp h with h1 | h2
          · obtain ⟨⟨q0, v0⟩, _, heq⟩ := List.mem_map.mp h1
            refine ⟨k, q0, ?_, by simp⟩
            simpa using (congrArg Prod.fst heq).symm
          · obtain ⟨k0, q0, hq, hk0⟩ := ih h2
            exact ⟨k0, q0, hq, by simp [hk0]⟩
      | leaf a =>
          rw [show leavesAllCh ((k, JTree.leaf a) :: tl)
              = [([k], JTree.leaf a)] ++ leavesAllCh tl from rfl] at h
          rcases List.mem_append.mp h with h1 | h2
          · simp only [List.mem_singleton, Prod.mk.injEq] at h1
            exact ⟨k, [], h1.1, by simp⟩
          · obtain ⟨k0, q0, hq, hk0⟩ := ih h2
            exact ⟨k0, q0, hq, by simp [hk0]⟩
      | undef =>
          rw [show leavesAllCh ((k, JTree.undef) :: tl)
              = [([k], JTree.undef)] ++ leavesAllCh tl from rfl] at h
          rcases List.mem_append.mp h with h1 | h2
          · simp only [List.mem_singleton, Prod.mk.injEq] at h1
            exact ⟨k, [], h1.1, by simp⟩
          · obtain ⟨k0, q0, hq, hk0⟩ := ih h2
            exact ⟨k0, q0, hq, by simp [hk0]⟩

theorem leavesAll_path_ne_nil {α : Type} (t : JTree α) (q : List String) (v : JTree α)
    (h : (q, v) ∈ leavesAll t) : q ≠ [] := by
  cases t with
  | leaf a => simp [leavesAll] at h
  | undef => simp [leavesAll] at h
  | node ch =>
      obtain ⟨k, q', hq, _⟩ := leavesAllCh_shape ch q v (by simpa [leavesAll] using h)
      simp [hq]

mutual
/-- Every object level of the tree binds each key at most once (always true
of trees built from JS objects, and preserved by the write primitives). -/
def wellKeyed {α : Type} : JTree α → Bool
  | .leaf _ => true
  | .undef => true
  | .node ch => decide ((ch.map Prod.fst).Nodup) && wellKeyedCh ch

def wellKeyedCh {α : Type} : List (String × JTree α) → Bool
  | [] => true
  | (_, t) :: rest => wellKeyed t && wellKeyedCh rest
end

theorem wellKeyedCh_mem {α : Type} (ch : List (String × JTree α)) (k : String)
    (t : JTree α) (hwk : wellKeyedCh ch = true) (h : (k, t) ∈ ch) :
    wellKeyed t = true := by
  induction ch with
  | nil => simp at h
  | cons hd tl ih =>
      obtain ⟨k', t'⟩ := hd
      rw [show wellKeyedCh ((k', t') :: tl) = (wellKeyed t' && wellKeyedCh tl) from rfl] at hwk
      simp only [Bool.and_eq_true] at hwk
      rcases List.mem_cons.mp h with h1 | h2
      · simp only [Prod.mk.injEq] at h1
        rw [h1.2]
        exact hwk.1
      · exact ih hwk.2 h2

theorem lookupKey_mem {α : Type} (ch : List (String × JTree α)) (k : String)
    (c : JTree α) (h : lookupKey ch k = some c) : (k, c) ∈ ch := by
  induction ch with
  | nil => simp [lookupKey] at h
  | cons hd tl ih =>
      obtain ⟨k', v'⟩ := hd
      by_cases hk : k' = k
      · subst hk
        have h' : v' = c := by simpa [lookupKey] using h
        rw [← h']
        exact List.mem_cons_self _ _
      · rw [show lookupKey ((k', v') :: tl) k
            = (if k' = k then some v' else lookupKey tl k) from rfl, if_neg hk] at h
        exact List.mem_cons_of_mem _ (ih h)

theorem keys_childUpdate_mem {α : Type} (ch : List (String × JTree α)) (k j : String)
    (v : JTree α) (h : j ∈ (childUpdate ch k v).map Prod.fst) :
    j ∈ ch.map Prod.fst ∨ j = k := by
  induction ch with
  | nil => simpa [childUpdate] using h
  | cons hd tl ih =>
      obtain ⟨k', v'⟩ := hd
      by_cases hk : k' = k
      · have hcu : childUpdate ((k', v') :: tl) k v = (k, v) :: tl := by
          simp [childUpdate, hk]
        rw [hcu, List.map_cons] at h
        rcases List.mem_cons.mp h with h1 | h2
        · exact Or.inr h1
        · exact Or.inl (by rw [List.map_cons]; exact List.mem_cons_of_mem _ h2)
      · have hcu : childUpdate ((k', v') :: tl) k v = (k', v') :: childUpdate tl k v := by
          simp [childUpdate, hk]
        rw [hcu, List.map_cons] at h
        rcases List.mem_cons.mp h with h1 | h2
        · exact Or.inl (by rw [List.map_cons, h1]; exact List.mem_cons_self _ _)
        · rcases ih h2 with h3 | h3
          · exact Or.inl (by rw [List.map_cons]; exact List.mem_cons_of_mem _ h3)
          · exact Or.inr h3

theorem nodup_keys_childUpdate {α : Type} (ch : List (String × JTree α)) (k : String)
    (v : JTree α) (hnd : (ch.map Prod.fst).Nodup) :
    ((childUpdate ch k v).map Prod.fst).Nodup := by
  induction ch with
  | nil => simp [childUpdate]
  | cons hd tl ih =>
      obtain ⟨k', v'⟩ := hd
      rw [List.map_cons, List.nodup_cons] at hnd
      by_cases hk : k' = k
      · have hcu : childUpdate ((k', v') :: tl) k v = (k, v) :: tl := by
          simp [childUpdate, hk]
        rw [hcu, List.map_cons, List.nodup_cons]
        exact ⟨hk ▸ hnd.1, hnd.2⟩
      · have hcu : childUpdate ((k', v') :: tl) k v = (k', v') :: childUpdate tl k v := by
          simp [childUpdate, hk]
        rw [hcu, List.map_cons, List.nodup_cons]
        refine ⟨fun hmem => ?_, ih hnd.2⟩
        rcases keys_childUpdate_mem tl k k' v hmem with h1 | h1
        · exact hnd.1 h1
        · exact hk h1

theorem wellKeyedCh_childUpdate {α : Type} (ch : List (String × JTree α)) (k : String)
    (v : JTree α) (hwk : wellKeyedCh ch = true) (hv : wellKeyed v = true) :
    wellKeyedCh (childUpdate ch k v) = true := by
  induction ch with
  | nil => simp [childUpdate, wellKeyedCh, hv]
  | cons hd tl ih =>
      obtain ⟨k', v'⟩ := hd
      rw [show wellKeyedCh ((k', v') :: tl) = (wellKeyed v' && wellKeyedCh tl) from rfl] at hwk
      simp only [Bool.and_eq_true] at hwk
      by_cases hk : k' = k
      · have hcu : childUpdate ((k', v') :: tl) k v = (k, v) :: tl := by
          simp [childUpdate, hk]
        rw [hcu, show wellKeyedCh ((k, v) :: tl) = (wellKeyed v && wellKeyedCh tl) from rfl]
        simp [hv, hwk.2]
      · have hcu : childUpdate ((k', v') :: tl) k v = (k', v') :: childUpdate tl k v := by
          simp [childUpdate, hk]
        rw [hcu, show wellKeyedCh ((k', v') :: childUpdate tl k v)
            = (wellKeyed v' && wellKeyedCh (childUpdate tl k v)) from rfl]
        simp [hwk.1, ih hwk.2]

theorem wellKeyed_node_split {α : Type} (ch : List (String × JTree α))
    (h : wellKeyed (.node ch) = true) :
    (ch.map Prod.fst).Nodup ∧ wellKeyedCh ch = true := by
  rw [show wellKeyed (JTree.node ch)
      = (decide ((ch.map Prod.fst).Nodup) && wellKeyedCh ch) from rfl] at h
  simp only [Bool.and_eq_true, decide_eq_true_eq] at h
  exact h

theorem wellKeyed_node_intro {α : Type} (ch : List (String × JTree α))
    (h1 : (ch.map Prod.fst).Nodup) (h2 : wellKeyedCh ch = true) :
    wellKeyed (.node ch) = true := by
  rw [show wellKeyed (JTree.node ch)
      = (decide ((ch.map Prod.fst).Nodup) && wellKeyedCh ch) from rfl]
  simp [h1, h2]

theorem wellKeyed_asNode {α : Type} (ch : List (String × JTree α)) (k : String)
    (hwk : wellKeyed (.node ch) = true) :
    wellKeyed (asNode (lookupKey ch k)) = true := by
  obtain ⟨hnd, hch⟩ := wellKeyed_node_split ch hwk
  cases hlk : lookupKey ch k with
  | none => simp [asNode, wellKeyed_node_intro, wellKeyedCh]
  | some c =>
      cases c with
      | node ch2 =>
          have := wellKeyedCh_mem ch k _ hch (lookupKey_mem ch k _ hlk)
          simpa [asNode] using this
      | leaf a => simp [asNode, wellKeyed_node_intro, wellKeyedCh]
      | undef => simp [asNode, wellKeyed_node_intro, wellKeyedCh]

theorem wellKeyed_setPathWith {α : Type} (t : JTree α) (q : List String)
    (f : Option (JTree α) → JTree α) (hwk : wellKeyed t = true)
    (hf : ∀ o, wellKeyed (f o) = true) :
    wellKeyed (setPathWith t q f) = true := by
  induction q generalizing t with
  | nil => simpa [setPathWith] using hwk
  | cons k q' ih =>
      cases t with
      | leaf a => cases q' <;> simpa [setPathWith] using hwk
      | undef => cases q' <;> simpa [setPathWith] using hwk
      | node ch =>
          obtain ⟨hnd, hch⟩ := wellKeyed_node_split ch hwk
          cases q' with
          | nil =>
              rw [show setPathWith (JTree.node ch) [k] f
                  = JTree.node (childUpdate ch k (f (lookupKey ch k))) from rfl]
              exact wellKeyed_node_intro _ (nodup_keys_childUpdate ch k _ hnd)
                (wellKeyedCh_childUpdate ch k _ hch (hf _))
          | cons k2 rest =>
              rw [show setPathWith (JTree.node ch) (k :: k2 :: rest) f
                  = JTree.node (childUpdate ch k
                      (setPathWith (asNode (lookupKey ch k)) (k2 :: rest) f)) from rfl]
              exact wellKeyed_node_intro _ (nodup_keys_childUpdate ch k _ hnd)
                (wellKeyedCh_childUpdate ch k _ hch
                  (ih _ (wellKeyed_asNode ch k hwk)))

theorem getPath_leavesAllCh_aux {α : Type} :
    ∀ (n : Nat) (ch : List (String × JTree α)), sizeOf ch < n →
      ∀ (q : List String) (v : JTree α),
        (ch.map Prod.fst).Nodup → wellKeyedCh ch = true →
        (q, v) ∈ leavesAllCh ch → getPath (.node ch) q = some v := by
  intro n
  induction n with
  | zero => exact fun ch h => absurd h (Nat.not_lt_zero _)
  | succ n ih =>
      intro ch hsz q v hnd hwk h
      cases ch with
      | nil => simp [leavesAllCh] at h
      | cons hd tl =>
          obtain ⟨k, t⟩ := hd
          rw [show wellKeyedCh ((k, t) :: tl) = (wellKeyed t && wellKeyedCh tl) from rfl] at hwk
          simp only [Bool.and_eq_true] at hwk
          rw [List.map_cons, List.nodup_cons] at hnd
          have htl : ∀ h2 : (q, v) ∈ leavesAllCh tl,
              getPath (JTree.node ((k, t) :: tl)) q = some v := by
            intro h2
            obtain ⟨k0, q0, hq, hk0⟩ := leavesAllCh_shape tl q v h2
            have hk0k : ¬ k = k0 := fun hEq => hnd.1 (hEq ▸ hk0)
            have hrec := ih tl (by simp at hsz ⊢; omega) q v hnd.2 hwk.2 h2
            rw [hq, getPath_node_cons] at hrec
            rw [hq, getPath_node_cons,
              show lookupKey ((k, t) :: tl) k0 = lookupKey tl k0 from by
                simp [lookupKey, hk0k]]
            exact hrec
          cases t with
          | node ch' =>
              rw [show leavesAllCh ((k, JTree.node ch') :: tl)
                  = (leavesAll (JTree.node ch')).map (fun qv => (k :: qv.1, qv.2))
                    ++ leavesAllCh tl from rfl] at h
              rcases List.mem_append.mp h with h1 | h2
              · obtain ⟨⟨q0, v0⟩, hmem, heq⟩ := List.mem_map.mp h1
                have hq : q = k :: q0 := by simpa using (congrArg Prod.fst heq).symm
                have hv : v = v0 := by simpa using (congrArg Prod.snd heq).symm
                subst hq
                subst hv
                obtain ⟨hnd', hch'⟩ := wellKeyed_node_split ch' hwk.1
                have hrec := ih ch' (by simp at hsz ⊢; omega) q0 v hnd' hch'
                  (by simpa [leavesAll] using hmem)
                rw [getPath_node_cons_of_some _ _ _ _
                  (show lookupKey ((k, JTree.node ch') :: tl) k = some (JTree.node ch') from by
                    simp [lookupKey])]
                exact hrec
              · exact htl h2
          | leaf a =>
              rw [show leavesAllCh ((k, JTree.leaf a) :: tl)
                  = [([k], JTree.leaf a)] ++ leavesAllCh tl from rfl] at h
              rcases List.mem_append.mp h with h1 | h2
              · simp only [List.mem_singleton, Prod.mk.injEq] at h1
                rw [h1.1, h1.2]
                simp [getPath, lookupKey]
              · exact htl h2
          | undef =>
              rw [show leavesAllCh ((k, JTree.undef) :: tl)
                  = [([k], JTree.undef)] ++ leavesAllCh tl from rfl] at h
              rcases List.mem_append.mp h with h1 | h2
              · simp only [List.mem_singleton, Prod.mk.injEq] at h1
                rw [h1.1, h1.2]
                simp [getPath, lookupKey]
              · exact htl h2

theorem getPath_of_mem_leavesAll {α : Type} (t : JTree α) (q : List String)
    (v : JTree α) (hwk : wellKeyed t = true) (h : (q, v) ∈ leavesAll t) :
    getPath t q = some v := by
  cases t with
  | leaf a => simp [leavesAll] at h
  | undef => simp [leavesAll] at h
  | node ch =>
      obtain ⟨hnd, hch⟩ := wellKeyed_node_split ch hwk
      exact getPath_leavesAllCh_aux (sizeOf ch + 1) ch (by omega) q v hnd hch
        (by simpa [leavesAll] using h)

theorem getPath_foldl_setPath_frame {α : Type} (l : List (List String × JTree α))
    (t : JTree α) (p : List String)
    (hl : ∀ qv ∈ l, ¬ qv.1 <+: p ∧ ¬ p <+: qv.1) :
    getPath (l.foldl (fun acc qv => setPath acc qv.1 qv.2) t) p = getPath t p := by
  induction l generalizing t with
  | nil => rfl
  | cons hd tl ih =>
      rw [List.foldl_cons, ih _ (fun qv hqv => hl qv (List.mem_cons_of_mem _ hqv))]
      exact getPath_setPathWith_frame t hd.1 p _ (hl hd (List.mem_cons_self _ _)).1
        (hl hd (List.mem_cons_self _ _)).2

theorem jsEqAt_ne_nil (n c : DTree) (p : List String) (h : jsEqAt n c p = true) :
    p ≠ [] := by
  intro hp
  subst hp
  simp [jsEqAt, jsWalk] at h

theorem taintUpdater_undef_of_eq (newData clean : DTree) (nt : List String)
    (pol : TaintPolicy) (p : List String) (old : Option TaintTree)
    (h : jsEqAt newData clean p = true) :
    taintUpdater newData clean nt pol p old = .undef := by
  unfold taintUpdater
  split
  · rfl
  · simp [h]

theorem taintUpdater_cases (newData clean : DTree) (nt : List String)
    (pol : TaintPolicy) (q : List String) (old : Option TaintTree) :
    taintUpdater newData clean nt pol q old = .undef ∨
      taintUpdater newData clean nt pol q old = .leaf () ∨
      taintUpdater newData clean nt pol q old = old.getD .undef := by
  unfold taintUpdater
  split
  · exact Or.inl rfl
  · split
    · exact Or.inl rfl
    · cases pol <;> simp

theorem taintFold_preserve (l : List (List String)) (n c : DTree) (nt : List String)
    (pol : TaintPolicy) (p : List String) (t : TaintTree)
    (hInv : getPath t p = none ∨ getPath t p = some .undef)
    (heq : jsEqAt n c p = true)
    (hl : ∀ q ∈ l, ¬ (p <+: q ∧ p ≠ q)) :
    getPath (l.foldl (fun acc q => setPathWith acc q (taintUpdater n c nt pol q)) t) p = none ∨
      getPath (l.foldl (fun acc q => setPathWith acc q (taintUpdater n c nt pol q)) t) p
        = some .undef := by
  induction l generalizing t with
  | nil => exact hInv
  | cons q tl ih =>
      rw [List.foldl_cons]
      refine ih _ ?_ (fun q' hq' => hl q' (List.mem_cons_of_mem _ hq'))
      by_cases hqnil : q = []
      · subst hqnil
        cases t <;> exact hInv
      · by_cases hqp : q <+: p
        · obtain ⟨r, hr⟩ := hqp
          cases t with
          | leaf a => cases q with
              | nil => exact absurd rfl hqnil
              | cons k q2 => exact hInv
          | undef => cases q with
              | nil => exact absurd rfl hqnil
              | cons k q2 => exact hInv
          | node ch =>
              rw [← hr, getPath_setPathWith_self ch q r _ hqnil]
              cases r with
              | nil =>
                  rw [taintUpdater_undef_of_eq n c nt pol q _ (by rw [← List.append_nil q, hr]; exact heq)]
                  exact Or.inr rfl
              | cons k r' =>
                  rcases taintUpdater_cases n c nt pol q (getPath (JTree.node ch) q) with hu | hu | hu
                  · rw [hu]
                    exact Or.inl rfl
                  · rw [hu]
                    exact Or.inl rfl
                  · rw [hu]
                    cases hold : getPath (JTree.node ch) q with
                    | none => exact Or.inl rfl
                    | some w =>
                        have : getPath w (k :: r') = getPath (JTree.node ch) p := by
                          rw [← hr, getPath_append, hold]
                          rfl
                        rw [Option.getD_some, this]
                        exact hInv
        · have hpq : ¬ p <+: q := by
            intro hp
            rcases hl q (List.mem_cons_self _ _) with h
            by_cases hpe : p = q
            · exact hqp (hpe ▸ List.prefix_refl p)
            · exact h ⟨hp, hpe⟩
          rcases hInv with h0 | h0
          · rw [getPath_setPathWith_frame t q p _ hqp hpq]
            exact Or.inl h0
          · rw [getPath_setPathWith_frame t q p _ hqp hpq]
            exact Or.inr h0

theorem leavesAllCh_flat_aux {α : Type} :
    ∀ (n : Nat) (ch : List (String × JTree α)), sizeOf ch < n →
      ∀ (q : List String) (v : JTree α), (q, v) ∈ leavesAllCh ch →
        (∃ a, v = .leaf a) ∨ v = .undef := by
  intro n
  induction n with
  | zero => exact fun ch h => absurd h (Nat.not_lt_zero _)
  | succ n ih =>
      intro ch hsz q v h
      cases ch with
      | nil => simp [leavesAllCh] at h
      | cons hd tl =>
          obtain ⟨k, t⟩ := hd
          cases t with
          | node ch' =>
              rw [show leavesAllCh ((k, JTree.node ch') :: tl)
                  = (leavesAll (JTree.node ch')).map (fun qv => (k :: qv.1, qv.2))
                    ++ leavesAllCh tl from rfl] at h
              rcases List.mem_append.mp h with h1 | h2
              · obtain ⟨⟨q0, v0⟩, hmem, heq⟩ := List.mem_map.mp h1
                have hv : v = v0 := by simpa using (congrArg Prod.snd heq).symm
                subst hv
                exact ih ch' (by simp at hsz ⊢; omega) q0 v
                  (by simpa [leavesAll] using hmem)
              · exact ih tl (by simp at hsz ⊢; omega) q v h2
          | leaf a =>
              rw [show leavesAllCh ((k, JTree.leaf a) :: tl)
                  = [([k], JTree.leaf a)] ++ leavesAllCh tl from rfl] at h
              rcases List.mem_append.mp h with h1 | h2
              · simp only [List.mem_singleton, Prod.mk.injEq] at h1
                exact Or.inl ⟨a, h1.2⟩
              · exact ih tl (by simp at hsz ⊢; omega) q v h2
          | undef =>
              rw [show leavesAllCh ((k, JTree.undef) :: tl)
                  = [([k], JTree.undef)] ++ leavesAllCh tl from rfl] at h
              rcases List.mem_append.mp h with h1 | h2
              · simp only [List.mem_singleton, Prod.mk.injEq] at h1
                exact Or.inr h1.2
              · exact ih tl (by simp at hsz ⊢; omega) q v h2

theorem leavesAll_flat {α : Type} (t : JTree α) (q : List String) (v : JTree α)
    (h : (q, v) ∈ leavesAll t) : (∃ a, v = .leaf a) ∨ v = .undef := by
  cases t with
  | leaf a => simp [leavesAll] at h
  | undef => simp [leavesAll] at h
  | node ch =>
      exact leavesAllCh_flat_aux (sizeOf ch + 1) ch (by omega) q v
        (by simpa [leavesAll] using h)

theorem mem_leavesAll_of_mem_leavesArr (t : ETree) (q : List String) (m : List String)
    (h : (q, m) ∈ leavesArr t) : (q, JTree.leaf m) ∈ leavesAll t := by
  obtain ⟨⟨q0, v0⟩, hmem, heq⟩ := List.mem_filterMap.mp h
  cases v0 with
  | leaf ms =>
      simp only [Option.some.injEq, Prod.mk.injEq] at heq
      rw [← heq.1, ← heq.2]
      exact hmem
  | undef => simp at heq
  | node ch => simp at heq

theorem displayFold_inv {α : Type} (l : List (List String × α)) (d : List String → Bool)
    (p : List String) (t : JTree α)
    (hdp : d p = false)
    (hnil : ∀ qm ∈ l, qm.1 ≠ [])
    (hInv : getPath t p = none ∨ ∃ ch', getPath t p = some (.node ch')) :
    getPath (l.foldl (fun acc pm => if d pm.1 then setPath acc pm.1 (.leaf pm.2) else acc) t) p
        = none ∨
      ∃ ch', getPath
        (l.foldl (fun acc pm => if d pm.1 then setPath acc pm.1 (.leaf pm.2) else acc) t) p
        = some (.node ch') := by
  induction l generalizing t with
  | nil => exact hInv
  | cons qm tl ih =>
      rw [List.foldl_cons]
      refine ih _ (fun qv hqv => hnil qv (List.mem_cons_of_mem _ hqv)) ?_
      by_cases hd : d qm.1
      · rw [if_pos hd]
        have hqp : qm.1 ≠ p := by
          intro h
          rw [h, hdp] at hd
          exact absurd hd (by simp)
        have hqnil : qm.1 ≠ [] := hnil qm (List.mem_cons_self _ _)
        cases t with
        | leaf a =>
            rcases hq : qm.1 with _ | ⟨k, q2⟩
            · exact absurd hq hqnil
            · rw [show setPath (JTree.leaf a) (k :: q2) (JTree.leaf qm.2)
                  = JTree.leaf a from by cases q2 <;> rfl]
              exact hInv
        | undef =>
            rcases hq : qm.1 with _ | ⟨k, q2⟩
            · exact absurd hq hqnil
            · rw [show setPath JTree.undef (k :: q2) (JTree.leaf qm.2)
                  = JTree.undef from by cases q2 <;> rfl]
              exact hInv
        | node ch =>
            by_cases hpref : qm.1 <+: p
            · obtain ⟨r, hr⟩ := hpref
              have hrne : r ≠ [] := by
                intro h
                rw [h, List.append_nil] at hr
                exact hqp hr
              simp only [setPath]
              rw [← hr, getPath_setPathWith_self ch qm.1 r _ hqnil]
              cases r with
              | nil => exact absurd rfl hrne
              | cons k r' => exact Or.inl rfl
            · by_cases hpref2 : p <+: qm.1
              · obtain ⟨ch', hch'⟩ := getPath_setPathWith_above ch qm.1 p _ hpref2
                  (fun h => hqp h.symm)
                exact Or.inr ⟨ch', hch'⟩
              · simp only [setPath]
                rw [getPath_setPathWith_frame _ qm.1 p _ hpref hpref2]
                exact hInv
      · rw [if_neg hd]
        exact hInv

theorem mergeFold_no_leaf (l : List (List String × ETree)) (p : List String) (t : ETree)
    (hInv : ∀ ms, getPath t p ≠ some (.leaf ms))
    (hentries : ∀ qv ∈ l, qv.1 ≠ [] ∧ ((∃ a, qv.2 = JTree.leaf a) ∨ qv.2 = .undef) ∧
      (qv.1 = p → ∀ ms, qv.2 ≠ JTree.leaf ms)) :
    ∀ ms, getPath (l.foldl (fun acc qv => setPath acc qv.1 qv.2) t) p
      ≠ some (.leaf ms) := by
  induction l generalizing t with
  | nil => exact hInv
  | cons qv tl ih =>
      rw [List.foldl_cons]
      refine ih _ ?_ (fun qv' hqv' => hentries qv' (List.mem_cons_of_mem _ hqv'))
      obtain ⟨hqnil, hflat, hnotleaf⟩ := hentries qv (List.mem_cons_self _ _)
      cases t with
      | leaf a =>
          rcases hq : qv.1 with _ | ⟨k, q2⟩
          · exact absurd hq hqnil
          · rw [show setPath (JTree.leaf a) (k :: q2) qv.2
                = JTree.leaf a from by cases q2 <;> rfl]
            exact hInv
      | undef =>
          rcases hq : qv.1 with _ | ⟨k, q2⟩
          · exact absurd hq hqnil
          · rw [show setPath JTree.undef (k :: q2) qv.2
                = JTree.undef from by cases q2 <;> rfl]
            exact hInv
      | node ch =>
          by_cases hqp : qv.1 = p
          · subst hqp
            intro ms hcon
            simp only [setPath] at hcon
            have hself := getPath_setPathWith_self ch qv.1 [] (fun _ => qv.2) hqnil
            rw [List.append_nil] at hself
            rw [hself] at hcon
            simp only [getPath, Option.some.injEq] at hcon
            exact hnotleaf rfl ms hcon
          · by_cases hpref : qv.1 <+: p
            · obtain ⟨r, hr⟩ := hpref
              have hrne : r ≠ [] := by
                intro h
                rw [h, List.append_nil] at hr
                exact hqp hr
              intro ms
              simp only [setPath]
              rw [← hr, getPath_setPathWith_self ch qv.1 r _ hqnil]
              cases r with
              | nil => exact absurd rfl hrne
              | cons k r' =>
                  rcases hflat with ⟨a, ha⟩ | ha
                  · rw [ha]
                    simp [getPath]
                  · rw [ha]
                    simp [getPath]
            · by_cases hpref2 : p <+: qv.1
              · obtain ⟨ch', hch'⟩ := getPath_setPathWith_above ch qv.1 p _ hpref2
                  (fun h => hqp h.symm)
                intro ms
                simp only [setPath]
                rw [hch']
                simp
              · intro ms
                simp only [setPath]
                rw [getPath_setPathWith_frame _ qv.1 p _ hpref hpref2]
                exact hInv ms

theorem displayFold_wellKeyed {α : Type} (l : List (List String × α)) (d : List String → Bool)
    (t : JTree α) (hwk : wellKeyed t = true) :
    wellKeyed (l.foldl
      (fun acc pm => if d pm.1 then setPath acc pm.1 (.leaf pm.2) else acc) t) = true := by
  induction l generalizing t with
  | nil => exact hwk
  | cons qm tl ih =>
      rw [List.foldl_cons]
      refine ih _ ?_
      by_cases hd : d qm.1
      · rw [if_pos hd]
        exact wellKeyed_setPathWith _ _ _ hwk (fun o => rfl)
      · rw [if_neg hd]
        exact hwk

/-! ## Claims -/

/-- C5: `updateErrors(New, Previous, force=true)` returns the new error tree
verbatim, for every pair of error trees; the previous tree does not influence
the result (src/dist/errors.js:80-81). -/
theorem C5_updateErrors_force_returns_new (n p : ETree) : updateErrors n p true = n := rfl

/-- C4 counterexample: the leaf `a.b` is present in the previous tree and
absent from the new tree `{a: ["y"]}`, yet after `updateErrors` with
`force = false` the key `a.b` is absent from the result (the new leaf written
at the shorter path `a` overwrote the subtree holding the undefined marker),
not present with value `undefined` as the claim states. -/
theorem C4_counterexample :
    getPath (JTree.node [("a", JTree.node [("b", JTree.leaf ["x"])])] : ETree) ["a", "b"]
        = some (JTree.leaf ["x"]) ∧
    getPath (JTree.node [("a", JTree.leaf ["y"])] : ETree) ["a", "b"] = none ∧
    getPath (updateErrors (JTree.node [("a", JTree.leaf ["y"])])
        (JTree.node [("a", JTree.node [("b", JTree.leaf ["x"])])]) false) ["a", "b"]
      = none :=
  ⟨rfl, rfl, rfl⟩

/-- C4 (amended): with `force = false`, `updateErrors` first marks every leaf
of the previous tree `undefined` and then writes the new tree's leaves, so a
leaf present in the previous tree is present with value `undefined` in the
result provided no array-or-undefined leaf path of the new tree is a prefix
of the previous leaf's path or an extension of it (when paths overlap, the
write of the new leaf removes or rebuilds the marker, as the counterexample
shows). -/
theorem C4_updateErrors_marks_undefined (n prev : ETree) (pp msgs : List String)
    (hprev : getPath prev pp = some (.leaf msgs))
    (hsep : ∀ qv ∈ leavesAll n, ¬ qv.1 <+: pp ∧ ¬ pp <+: qv.1) :
    getPath (updateErrors n prev false) pp = some .undef := by
  rw [show updateErrors n prev false
      = (leavesAll n).foldl (fun acc qv => setPath acc qv.1 qv.2) (setArraysUndef prev)
      from rfl]
  rw [getPath_foldl_setPath_frame _ _ _ hsep]
  exact getPath_setArraysUndef_of_leaf prev pp msgs hprev

/-- Witness for the amended C4 theorem at a concrete input: previous tree
`{b: ["x"]}`, new tree `{a: ["y"]}`, path `b`. -/
theorem C4_witness :
    getPath (JTree.node [("b", JTree.leaf ["x"])] : ETree) ["b"] = some (JTree.leaf ["x"]) ∧
    (∀ qv ∈ leavesAll (JTree.node [("a", JTree.leaf ["y"])] : ETree),
      ¬ qv.1 <+: ["b"] ∧ ¬ ["b"] <+: qv.1) ∧
    getPath (updateErrors (JTree.node [("a", JTree.leaf ["y"])])
        (JTree.node [("b", JTree.leaf ["x"])]) false) ["b"] = some JTree.undef :=
  ⟨rfl, by decide, C4_updateErrors_marks_undefined _ _ _ ["x"] rfl (by decide)⟩

/-- C8: `Tainted_update` with the `'ignore'` policy returns immediately
(src/dist/index.d.ts:710-711): the tainted tree and the clean baseline are
unchanged for every state and every new data tree. -/
theorem C8_ignore_is_noop (state : Option TaintTree) (clean form newData : DTree) :
    Tainted_update state clean form newData .ignore = (state, clean) := rfl

/-- C3 counterexample: with clean baseline `{f: 1}`, current form
`{f: {b: 2}}` and new data `{f: 1}`, the path `f` is changed and its new
value is strictly equal to the clean value, the policy is `true` (not
`'ignore'`), yet the resulting tainted tree holds an object at `f` (the
other changed path `f.b` extended it and rebuilt a container over the
undefined marker), not the absent/undefined value the claim requires. -/
theorem C3_counterexample :
    ["f"] ∈ comparePaths (DTree.obj [("f", DTree.scalar (DVal.vInt 1))])
        (DTree.obj [("f", DTree.obj [("b", DTree.scalar (DVal.vInt 2))])]) ∧
    jsEqAt (DTree.obj [("f", DTree.scalar (DVal.vInt 1))])
        (DTree.obj [("f", DTree.scalar (DVal.vInt 1))]) ["f"] = true ∧
    ((Tainted_update (some (JTree.node []))
        (DTree.obj [("f", DTree.scalar (DVal.vInt 1))])
        (DTree.obj [("f", DTree.obj [("b", DTree.scalar (DVal.vInt 2))])])
        (DTree.obj [("f", DTree.scalar (DVal.vInt 1))]) TaintPolicy.taintTrue).1.bind
      (fun t => getPath t ["f"]))
      = some (JTree.node [("b", JTree.undef)]) ∧
    ¬ (((Tainted_update (some (JTree.node []))
        (DTree.obj [("f", DTree.scalar (DVal.vInt 1))])
        (DTree.obj [("f", DTree.obj [("b", DTree.scalar (DVal.vInt 2))])])
        (DTree.obj [("f", DTree.scalar (DVal.vInt 1))]) TaintPolicy.taintTrue).1.bind
      (fun t => getPath t ["f"])) = none ∨
      ((Tainted_update (some (JTree.node []))
        (DTree.obj [("f", DTree.scalar (DVal.vInt 1))])
        (DTree.obj [("f", DTree.obj [("b", DTree.scalar (DVal.vInt 2))])])
        (DTree.obj [("f", DTree.scalar (DVal.vInt 1))]) TaintPolicy.taintTrue).1.bind
      (fun t => getPath t ["f"])) = some JTree.undef) := by
  have hv : ((Tainted_update (some (JTree.node []))
        (DTree.obj [("f", DTree.scalar (DVal.vInt 1))])
        (DTree.obj [("f", DTree.obj [("b", DTree.scalar (DVal.vInt 2))])])
        (DTree.obj [("f", DTree.scalar (DVal.vInt 1))]) TaintPolicy.taintTrue).1.bind
      (fun t => getPath t ["f"])) = some (JTree.node [("b", JTree.undef)]) := rfl
  refine ⟨by decide, rfl, hv, ?_⟩
  rintro (h | h)
  · rw [hv] at h
    exact Option.noConfusion h
  · rw [hv] at h
    exact JTree.noConfusion (Option.some.inj h)

/-- C3 (amended): for every non-`'ignore'` policy and every changed path
whose new value is strictly equal to the clean baseline value, the resulting
tainted value at that path is absent or `undefined`, provided no other
changed path strictly extends it (a strictly extending changed path rebuilds
a container over the marker, as the counterexample shows). -/
theorem C3_selfhealing_taint (state : Option TaintTree) (clean form newData : DTree)
    (pol : TaintPolicy) (p : List String)
    (hpol : pol ≠ .ignore)
    (hp : p ∈ comparePaths newData form)
    (heq : jsEqAt newData clean p = true)
    (hnoext : ∀ q ∈ comparePaths newData form, ¬ (p <+: q ∧ p ≠ q)) :
    ((Tainted_update state clean form newData pol).1.bind (fun t => getPath t p)) = none ∨
    ((Tainted_update state clean form newData pol).1.bind (fun t => getPath t p))
      = some .undef := by
  have hpne : p ≠ [] := jsEqAt_ne_nil _ _ _ heq
  unfold Tainted_update
  rw [if_neg hpol, if_neg (by simp [List.isEmpty_iff]; exact List.ne_nil_of_mem hp)]
  by_cases hsp : pol = .untaintAll ∨ pol = .untaintForm
  · rw [if_pos hsp]
    exact Or.inl rfl
  · rw [if_neg hsp]
    obtain ⟨l1, l2, hsplit⟩ := List.append_of_mem hp
    rw [hsplit]
    have hstep : getPath (setPathWith
        (l1.foldl (fun acc q => setPathWith acc q
          (taintUpdater newData clean ((comparePaths newData clean).map joinComma) pol q))
          (state.getD (.node []))) p
        (taintUpdater newData clean ((comparePaths newData clean).map joinComma) pol p)) p
          = none ∨
        getPath (setPathWith
        (l1.foldl (fun acc q => setPathWith acc q
          (taintUpdater newData clean ((comparePaths newData clean).map joinComma) pol q))
          (state.getD (.node []))) p
        (taintUpdater newData clean ((comparePaths newData clean).map joinComma) pol p)) p
          = some .undef := by
      cases htmid : (l1.foldl (fun acc q => setPathWith acc q
          (taintUpdater newData clean ((comparePaths newData clean).map joinComma) pol q))
          (state.getD (.node []))) with
      | leaf a =>
          rcases hq : p with _ | ⟨k, p2⟩
          · exact absurd hq hpne
          · rw [show setPathWith (JTree.leaf a) (k :: p2)
                (taintUpdater newData clean
                  ((comparePaths newData clean).map joinComma) pol (k :: p2))
                = JTree.leaf a from by cases p2 <;> rfl]
            exact Or.inl rfl
      | undef =>
          rcases hq : p with _ | ⟨k, p2⟩
          · exact absurd hq hpne
          · rw [show setPathWith JTree.undef (k :: p2)
                (taintUpdater newData clean
                  ((comparePaths newData clean).map joinComma) pol (k :: p2))
                = JTree.undef from by cases p2 <;> rfl]
            exact Or.inl rfl
      | node ch =>
          have hself := getPath_setPathWith_self ch p []
            (taintUpdater newData clean ((comparePaths newData clean).map joinComma) pol p) hpne
          rw [List.append_nil] at hself
          rw [hself, taintUpdater_undef_of_eq _ _ _ _ _ _ heq]
          exact Or.inr rfl
    have hpres := taintFold_preserve l2 newData clean
      ((comparePaths newData clean).map joinComma) pol p _ hstep heq
      (fun q hq => hnoext q
        (by rw [hsplit]; exact List.mem_append_right _ (List.mem_cons_of_mem _ hq)))
    rw [List.foldl_append, List.foldl_cons]
    rcases hpres with h | h
    · exact Or.inl h
    · exact Or.inr h

/-- Witness for the amended C3 theorem at a concrete input: clean `{f: 1}`,
form `{f: 2}`, new data `{f: 1}`, policy `true`, path `f`. -/
theorem C3_witness :
    TaintPolicy.taintTrue ≠ TaintPolicy.ignore ∧
    ["f"] ∈ comparePaths (DTree.obj [("f", DTree.scalar (DVal.vInt 1))])
        (DTree.obj [("f", DTree.scalar (DVal.vInt 2))]) ∧
    jsEqAt (DTree.obj [("f", DTree.scalar (DVal.vInt 1))])
        (DTree.obj [("f", DTree.scalar (DVal.vInt 1))]) ["f"] = true ∧
    (∀ q ∈ comparePaths (DTree.obj [("f", DTree.scalar (DVal.vInt 1))])
        (DTree.obj [("f", DTree.scalar (DVal.vInt 2))]), ¬ (["f"] <+: q ∧ ["f"] ≠ q)) ∧
    (((Tainted_update (some (JTree.node []))
        (DTree.obj [("f", DTree.scalar (DVal.vInt 1))])
        (DTree.obj [("f", DTree.scalar (DVal.vInt 2))])
        (DTree.obj [("f", DTree.scalar (DVal.vInt 1))]) TaintPolicy.taintTrue).1.bind
      (fun t => getPath t ["f"])) = none ∨
     ((Tainted_update (some (JTree.node []))
        (DTree.obj [("f", DTree.scalar (DVal.vInt 1))])
        (DTree.obj [("f", DTree.scalar (DVal.vInt 2))])
        (DTree.obj [("f", DTree.scalar (DVal.vInt 1))]) TaintPolicy.taintTrue).1.bind
      (fun t => getPath t ["f"])) = some JTree.undef) :=
  ⟨by decide, by decide, rfl, by decide,
    C3_selfhealing_taint _ _ _ _ _ _ (by decide) (by decide) rfl (by decide)⟩

/-- C6: with `validationMethod` set to `'onsubmit'` or `'submit-only'` and no
force flag, `Form_clientValidation` never reaches the `Form_validate` call for
any change event and any validators option (src/dist/index.d.ts:387-403): the
configured validator is not invoked. -/
theorem C6_onsubmit_never_validates (vm : ValidationMethod) (validators : ValidatorsOption)
    (event : Option ChangeEventInfo) (force : Bool)
    (hvm : vm = .onsubmit ∨ vm = .submitOnly) (hforce : force = false) :
    Form_clientValidation_invokes vm validators event force = false := by
  subst hforce
  rcases hvm with h | h <;> subst h <;>
    simp [Form_clientValidation_invokes, skipValidation]

/-- Witness for C6 at a concrete input: `'onsubmit'`, a configured adapter,
an input-type change event. -/
theorem C6_witness :
    (ValidationMethod.onsubmit = ValidationMethod.onsubmit ∨
      ValidationMethod.onsubmit = ValidationMethod.submitOnly) ∧
    false = false ∧
    Form_clientValidation_invokes ValidationMethod.onsubmit ValidatorsOption.adapter
      (some ⟨some EventType.input⟩) false = false :=
  ⟨Or.inl rfl, rfl,
    C6_onsubmit_never_validates _ _ _ _ (Or.inl rfl) rfl⟩

/-- C7 counterexample: a request body whose `formData()` call fails with a
`TypeError` mentioning `'already been consumed'` is rethrown by
`tryParseFormData` (src/dist/formData.js:55-59), so a request whose body
cannot be parsed does not always produce the empty-form result. -/
theorem C7_counterexample :
    tryParseFormData (Except.error ⟨true, "Body has already been consumed."⟩)
        (fun _ : Unit => Except.ok emptyFormRequest)
      = Except.error ⟨true, "Body has already been consumed."⟩ ∧
    tryParseFormData (Except.error ⟨true, "Body has already been consumed."⟩)
        (fun _ : Unit => Except.ok emptyFormRequest)
      ≠ Except.ok emptyFormRequest := by
  have hv : tryParseFormData (Except.error ⟨true, "Body has already been consumed."⟩)
      (fun _ : Unit => Except.ok emptyFormRequest)
      = Except.error ⟨true, "Body has already been consumed."⟩ := by
    rw [show tryParseFormData (Except.error ⟨true, "Body has already been consumed."⟩)
        (fun _ : Unit => Except.ok emptyFormRequest)
        = (if (true && strIncludes "Body has already been consumed." "already been consumed")
           then Except.error (⟨true, "Body has already been consumed."⟩ : JsError)
           else Except.ok emptyFormRequest) from rfl]
    rw [if_pos (by decide)]
  refine ⟨hv, ?_⟩
  intro h
  rw [hv] at h
  exact Except.noConfusion h

/-- C7 (amended): every formData parse failure other than a rethrown
`TypeError` whose message includes `'already been consumed'` degrades to the
empty-form result `{id: undefined, data: undefined, posted: false}` without
throwing. -/
theorem C7_parse_failure_degrades {φ : Type} (e : JsError)
    (parseFn : φ → Except JsError ParsedRequest)
    (h : ¬ (e.isTypeError = true ∧ strIncludes e.message "already been consumed" = true)) :
    tryParseFormData (Except.error e) parseFn = Except.ok emptyFormRequest := by
  have hv : tryParseFormData (Except.error e) parseFn
      = if (e.isTypeError && strIncludes e.message "already been consumed") = true
        then Except.error e else Except.ok emptyFormRequest := rfl
  rw [hv, if_neg (by simpa [Bool.and_eq_true] using h)]

/-- Witness for the amended C7 theorem at a concrete input: a non-TypeError
network failure. -/
theorem C7_witness :
    ¬ ((⟨false, "network error"⟩ : JsError).isTypeError = true ∧
        strIncludes (⟨false, "network error"⟩ : JsError).message "already been consumed" = true) ∧
    tryParseFormData (Except.error (⟨false, "network error"⟩ : JsError))
        (fun _ : Unit => Except.ok emptyFormRequest)
      = Except.ok emptyFormRequest :=
  ⟨by decide, C7_parse_failure_degrades _ _ (by decide)⟩

/-- C2: the last-segment check of `mapErrors` uses the regex `/^\d$/`
(src/dist/errors.js:43), which matches a single digit only.  For an issue
at `tags[10]` with `tags` present in the shape, the object-level branch is
taken and the message lands under an `_errors` key, while the same issue at
`tags[1]` produces the leaf message array the claim (and the code's own
comment about array errors) describes.  This evaluates the code at the
failing input. -/
theorem C2_multidigit_index_becomes_object_error :
    mapErrors [⟨[Seg.s "tags", Seg.n 10], "x"⟩] (Shape.node [("tags", Shape.node [])])
        = Except.ok (JTree.node [("tags", JTree.node
            [("10", JTree.node [("_errors", JTree.leaf ["x"])])])]) ∧
    mapErrors [⟨[Seg.s "tags", Seg.n 1], "x"⟩] (Shape.node [("tags", Shape.node [])])
        = Except.ok (JTree.node [("tags", JTree.node [("1", JTree.leaf ["x"])])]) :=
  ⟨rfl, rfl⟩

/-- C10: an issue whose path is a single falsy segment — the number `0` or
the empty string — is appended to the root `_errors` array by `mapErrors`
(src/dist/errors.js:37-40), not stored as a leaf at that path. -/
theorem C10_falsy_single_segment_is_form_level (seg : Seg) (shape : Shape) (msg : String)
    (h : segFalsy seg = true) :
    mapErrors [⟨[seg], msg⟩] shape
      = Except.ok (JTree.node [("_errors", JTree.leaf [msg])]) := by
  have hcond : ([seg] : List Seg).isEmpty = true ∨
      (([seg] : List Seg).length = 1 ∧ segFalsy (([seg] : List Seg).headD (.s "")) = true) := by
    right
    exact ⟨rfl, by simpa using h⟩
  have hv : insertIssue shape (.node []) ⟨[seg], msg⟩
      = addFormLevelError (.node []) msg := by
    unfold insertIssue
    rw [if_pos (by simpa using hcond)]
  have hform : addFormLevelError (JTree.node [] : ETree) msg
      = Except.ok (JTree.node [("_errors", JTree.leaf [msg])]) := rfl
  show (insertIssue shape (.node []) ⟨[seg], msg⟩).bind
      (fun out => List.foldlM (fun out e => insertIssue shape out e) out []) = _
  rw [hv, hform]
  rfl

/-- Witness for the C10 theorem at a concrete input: the numeric index 0. -/
theorem C10_witness :
    segFalsy (Seg.n 0) = true ∧
    mapErrors [⟨[Seg.n 0], "m"⟩] (Shape.node [])
      = Except.ok (JTree.node [("_errors", JTree.leaf ["m"])]) :=
  ⟨rfl, C10_falsy_single_segment_is_form_level (Seg.n 0) (Shape.node []) "m" rfl⟩

/-- C1 counterexample: with an empty previous error store, validation method
`'auto'` and a plain (non-immediate, non-multiple) input event on `name`, the
fresh error leaf at `name` is not selected for display, and the resulting
error store is empty: the key `name` is absent, not present with value
`undefined` as the claim states. -/
theorem C1_counterexample :
    (["name"], ["Too short"]) ∈ leavesArr
        (JTree.node [("name", JTree.leaf ["Too short"])] : ETree) ∧
    shouldDisplay ⟨ValidationMethod.auto, JTree.node [], none⟩
        ⟨some EventType.input, false, false, [["name"]]⟩ false ["name"] = false ∧
    Form__displayNewErrors ⟨ValidationMethod.auto, JTree.node [], none⟩
        ⟨some EventType.input, false, false, [["name"]]⟩ false
        (JTree.node [("name", JTree.leaf ["Too short"])])
      = JTree.node [] ∧
    getPath (Form__displayNewErrors ⟨ValidationMethod.auto, JTree.node [], none⟩
        ⟨some EventType.input, false, false, [["name"]]⟩ false
        (JTree.node [("name", JTree.leaf ["Too short"])])) ["name"] = none :=
  ⟨by decide, rfl, rfl, rfl⟩

/-- C1 (amended): with `force = false`, the messages of an error leaf of the
new error tree that is not selected for display are never written to the
resulting error store: the value at its path is never a leaf message array
(it is absent, explicitly `undefined`, or an object created for other
errors).  In particular a fresh suppressed error is dropped (key absent)
rather than recorded as an explicit `undefined` key. -/
theorem C1_suppressed_error_not_stored (ctx : DisplayCtx) (ev : DisplayEvent)
    (newErrors : ETree) (p : List String) (msgs : List String)
    (hp : (p, msgs) ∈ leavesArr newErrors)
    (hsup : shouldDisplay ctx ev false p = false) :
    ∀ ms, getPath (Form__displayNewErrors ctx ev false newErrors) p
      ≠ some (JTree.leaf ms) := by
  have hpnil : p ≠ [] :=
    leavesAll_path_ne_nil newErrors p _ (mem_leavesAll_of_mem_leavesArr _ _ _ hp)
  have hwkout : wellKeyed (displayedOutput ctx ev false newErrors) = true := by
    unfold displayedOutput
    exact displayFold_wellKeyed _ _ _ rfl
  have hnil0 : ∀ qm ∈ leavesArr newErrors, qm.1 ≠ [] := by
    intro qm hqm
    exact leavesAll_path_ne_nil newErrors qm.1 _
      (mem_leavesAll_of_mem_leavesArr _ _ _ hqm)
  have hstart : getPath (JTree.node [] : ETree) p = none ∨
      ∃ ch', getPath (JTree.node [] : ETree) p = some (.node ch') := by
    rcases hq : p with _ | ⟨k, p2⟩
    · exact absurd hq hpnil
    · exact Or.inl (by simp [getPath, lookupKey])
  have hJ : getPath (displayedOutput ctx ev false newErrors) p = none ∨
      ∃ ch', getPath (displayedOutput ctx ev false newErrors) p = some (.node ch') := by
    unfold displayedOutput
    exact displayFold_inv _ _ _ _ hsup hnil0 hstart
  have hentries : ∀ qv ∈ leavesAll (displayedOutput ctx ev false newErrors),
      qv.1 ≠ [] ∧ ((∃ a, qv.2 = JTree.leaf a) ∨ qv.2 = .undef) ∧
        (qv.1 = p → ∀ ms, qv.2 ≠ JTree.leaf ms) := by
    intro qv hqv
    refine ⟨leavesAll_path_ne_nil _ _ _ hqv, leavesAll_flat _ _ _ hqv, ?_⟩
    intro hqp ms hleaf
    have hget := getPath_of_mem_leavesAll _ _ _ hwkout hqv
    rw [hqp, hleaf] at hget
    rcases hJ with hJ0 | ⟨ch', hJ1⟩
    · rw [hget] at hJ0
      exact Option.noConfusion hJ0
    · rw [hget] at hJ1
      exact JTree.noConfusion (Option.some.inj hJ1)
  intro ms
  rw [show Form__displayNewErrors ctx ev false newErrors
      = (leavesAll (displayedOutput ctx ev false newErrors)).foldl
          (fun acc qv => setPath acc qv.1 qv.2) (setArraysUndef ctx.previous) from rfl]
  exact mergeFold_no_leaf _ p _
    (fun ms' => getPath_setArraysUndef_ne_leaf ctx.previous p ms') hentries ms

/-- Witness for the amended C1 theorem at the counterexample's input,
checking that the message `Too short` is not stored at `name`. -/
theorem C1_witness :
    (["name"], ["Too short"]) ∈ leavesArr
        (JTree.node [("name", JTree.leaf ["Too short"])] : ETree) ∧
    shouldDisplay ⟨ValidationMethod.auto, JTree.node [], none⟩
        ⟨some EventType.input, false, false, [["name"]]⟩ false ["name"] = false ∧
    getPath (Form__displayNewErrors ⟨ValidationMethod.auto, JTree.node [], none⟩
        ⟨some EventType.input, false, false, [["name"]]⟩ false
        (JTree.node [("name", JTree.leaf ["Too short"])])) ["name"]
      ≠ some (JTree.leaf ["Too short"]) :=
  ⟨by decide, rfl,
    C1_suppressed_error_not_stored ⟨ValidationMethod.auto, JTree.node [], none⟩
      ⟨some EventType.input, false, false, [["name"]]⟩
      (JTree.node [("name", JTree.leaf ["Too short"])]) ["name"] ["Too short"]
      (by decide) rfl ["Too short"]⟩

/-- C9: for every string (as a character list) and positive chunk size,
`chunkSubstr` produces `ceil(length / n)` chunks (as the Nat expression
`(length + n - 1) / n`), each of length at most `n`, all but possibly the
last of length exactly `n`, and their in-order concatenation is the original
string — so joining the chunks before parsing is lossless
(src/dist/index.d.ts:1175-1182 and src/dist/formData.js:81). -/
theorem C9_chunkSubstr_lossless (s : List Char) (n : Nat) (h : 0 < n) :
    (chunkSubstr s n).length = (s.length + n - 1) / n ∧
    (∀ c ∈ chunkSubstr s n, c.length ≤ n) ∧
    (∀ i : Nat, i + 1 < (chunkSubstr s n).length →
      ((chunkSubstr s n).getD i []).length = n) ∧
    (chunkSubstr s n).flatten = s := by
  have hlen : (chunkSubstr s n).length = (s.length + n - 1) / n := by
    simp [chunkSubstr]
  refine ⟨hlen, ?_, ?_, ?_⟩
  · intro c hc
    unfold chunkSubstr at hc
    obtain ⟨i, hi, hci⟩ := List.mem_map.mp hc
    rw [← hci, List.length_take]
    exact Nat.min_le_left _ _
  · intro i hi
    rw [hlen] at hi
    have hchunk : (chunkSubstr s n).getD i [] = (s.drop (i * n)).take n := by
      rw [List.getD_eq_getElem?_getD]
      unfold chunkSubstr
      rw [List.getElem?_map, List.getElem?_range (by omega)]
      rfl
    rw [hchunk, List.length_take, List.length_drop]
    have h5 : i + 2 ≤ (s.length + n - 1) / n := by omega
    have h2 : (i + 2) * n ≤ s.length + n - 1 := (Nat.le_div_iff_mul_le h).mp h5
    have e2 : (i + 2) * n = i * n + n + n := by ring
    omega
  · have hjoin : ∀ k : Nat,
        ((List.range k).map (fun i => (s.drop (i * n)).take n)).flatten = s.take (k * n) := by
      intro k
      induction k with
      | zero => simp
      | succ k ih =>
          rw [List.range_succ, List.map_append, List.flatten_append, ih]
          simp only [List.map_cons, List.map_nil, List.flatten_cons, List.flatten_nil,
            List.append_nil]
          rw [Nat.succ_mul, List.take_add]
    have hceil : s.length ≤ (s.length + n - 1) / n * n := by
      by_contra hcon
      push_neg at hcon
      have h2 : (((s.length + n - 1) / n) + 1) * n ≤ s.length + n - 1 := by
        have e : (((s.length + n - 1) / n) + 1) * n = (s.length + n - 1) / n * n + n := by
          ring
        omega
      have h3 := (Nat.le_div_iff_mul_le h).mpr h2
      omega
    show ((List.range ((s.length + n - 1) / n)).map
        (fun i => (s.drop (i * n)).take n)).flatten = s
    rw [hjoin, List.take_of_length_le hceil]

/-- Witness for C9 at a concrete input: `"abcde"` with chunk size 2. -/
theorem C9_witness :
    0 < 2 ∧
    ((chunkSubstr "abcde".toList 2).length = ("abcde".toList.length + 2 - 1) / 2 ∧
     (∀ c ∈ chunkSubstr "abcde".toList 2, c.length ≤ 2) ∧
     (∀ i : Nat, i + 1 < (chunkSubstr "abcde".toList 2).length →
       ((chunkSubstr "abcde".toList 2).getD i []).length = 2) ∧
     (chunkSubstr "abcde".toList 2).flatten = "abcde".toList) :=
  ⟨by decide, C9_chunkSubstr_lossless "abcde".toList 2 (by decide)⟩
